import Mathlib

/-!
Shallow embedding of the team-formation core of the `guccicci` repository
(src/domain.rs and src/strategy.rs), together with theorems checking the
natural-language specification against it.

Modelling conventions:
* Rust `Vec<T>` is modelled as `List T` in the same order; `Vec::pop`
  removes the last element (`List.getLast?` / `List.dropLast`).
* `u8` values (`num_of_teams`) are modelled as `Nat`; no arithmetic is
  performed on them in the source, so no wraparound can occur.  The
  `u8::try_from(..).unwrap()` in `validate` sits in the branch where the
  converted count is strictly below `num_of_teams : u8`, hence below 256,
  so it never truncates or panics and is modelled as the identity.
* the `VecShuffleStrategy` trait is modelled as a function
  `List Person → Except Unit (List Person)` (`anyhow::Error` carries no
  information the core inspects, so the error type is `Unit`).
* `Teams::create` is modelled as a total function into an explicit outcome
  type `CreateResult` whose constructors record, besides the `Ok` value and
  the two kinds of returned errors, the two abnormal behaviours of the
  source: the `pop().unwrap()` panic in `Team::create_by_leader_candidates`
  (`panicUnwrap`) and non-termination of the round-robin `while` loop
  (`diverge`).  The second shuffle-error constructor records the `Team`
  values that were already constructed when that error is returned, so that
  statements about "errors raised before any Team is constructed" can be
  made.
-/

/-- Rust struct `Person` (src/domain.rs): a participant, identified by name. -/
structure Person where
  name : String
deriving DecidableEq, Repr

/-- Rust struct `Team` (src/domain.rs): one leader plus an ordered member list. -/
structure Team where
  leader : Person
  member : List Person
deriving DecidableEq, Repr

/-- Rust `Team::new`: a team with the given leader and no members. -/
def Team.new (leader : Person) : Team :=
  { leader := leader, member := [] }

/-- Rust `Team::assign`: append `new_member` to the team's member list. -/
def Team.assign (t : Team) (new_member : Person) : Team :=
  { t with member := t.member ++ [new_member] }

/-- Loop body of Rust `Team::create_by_leader_candidates`: perform
`k` iterations of `let leader = leader_candidates.pop().unwrap()`,
building the team list in creation order.  `none` models the panic of the
`unwrap` when the pool runs out. -/
def Team.create_by_leader_candidatesGo : Nat → List Person → Option (List Team × List Person)
  | 0, leader_candidates => some ([], leader_candidates)
  | k + 1, leader_candidates =>
    match leader_candidates.getLast? with
    | none => none
    | some leader =>
      match Team.create_by_leader_candidatesGo k leader_candidates.dropLast with
      | none => none
      | some (teams, rest) => some (Team.new leader :: teams, rest)

/-- Rust `Team::create_by_leader_candidates`: pop `num_of_teams` leaders from
the end of the candidate list, returning the created teams (index 0 = first
pop) and the remaining candidates; `none` models the `unwrap` panic. -/
def Team.create_by_leader_candidates (leader_candidates : List Person)
    (num_of_teams : Nat) : Option (List Team × List Person) :=
  Team.create_by_leader_candidatesGo num_of_teams leader_candidates

/-- Rust struct `Attendee` (src/domain.rs). -/
structure Attendee where
  person : Person
  leader : Option Bool
deriving DecidableEq, Repr

/-- Rust `Attendee::is_leader`: `self.leader.unwrap_or(false)`. -/
def Attendee.is_leader (a : Attendee) : Bool :=
  a.leader.getD false

/-- Rust enum `TeamsCreationSettingError` (src/domain.rs). -/
inductive TeamsCreationSettingError where
  | NumOfTeamsZero : TeamsCreationSettingError
  | LeadersLack (available required : Nat) : TeamsCreationSettingError
deriving DecidableEq, Repr

/-- Rust struct `TeamsCreationSetting` (src/domain.rs).  `num_of_teams` is a
`u8` in the source, modelled as `Nat`. -/
structure TeamsCreationSetting where
  attendees : List Attendee
  num_of_teams : Nat
  flat : Option Bool
deriving DecidableEq, Repr

/-- Rust `TeamsCreationSetting::is_flat`: `self.flat.unwrap_or(false)`. -/
def TeamsCreationSetting.is_flat (s : TeamsCreationSetting) : Bool :=
  s.flat.getD false

/-- Rust `TeamsCreationSetting::all_people`. -/
def TeamsCreationSetting.all_people (s : TeamsCreationSetting) : List Person :=
  s.attendees.map (fun a => a.person)

/-- Rust `TeamsCreationSetting::leader_candidates`. -/
def TeamsCreationSetting.leader_candidates (s : TeamsCreationSetting) : List Person :=
  if s.is_flat then s.all_people
  else (s.attendees.filter (fun a => a.is_leader)).map (fun a => a.person)

/-- Rust `TeamsCreationSetting::normal_attendees`. -/
def TeamsCreationSetting.normal_attendees (s : TeamsCreationSetting) : List Person :=
  if s.is_flat then []
  else (s.attendees.filter (fun a => !a.is_leader)).map (fun a => a.person)

/-- Rust `TeamsCreationSetting::validate`. -/
def TeamsCreationSetting.validate (s : TeamsCreationSetting) :
    Except TeamsCreationSettingError Unit :=
  let num_of_leader_candidates := s.leader_candidates.length
  if s.num_of_teams = 0 then
    Except.error TeamsCreationSettingError.NumOfTeamsZero
  else if num_of_leader_candidates < s.num_of_teams then
    Except.error (TeamsCreationSettingError.LeadersLack num_of_leader_candidates s.num_of_teams)
  else
    Except.ok ()

/-- Rust struct `Teams` (src/domain.rs): the aggregate of created teams. -/
structure Teams where
  team : List Team
deriving DecidableEq, Repr

/-- The shape of a `VecShuffleStrategy` implementation at type `Person`,
as `Teams::create` uses it: an in-place shuffle modelled functionally,
returning `Except.error ()` when the strategy's `shuffle` call fails. -/
def Shuffle : Type :=
  List Person → Except Unit (List Person)

/-- A shuffle strategy that permutes its input whenever it succeeds. -/
def Permuting (f : Shuffle) : Prop :=
  ∀ l l', f l = Except.ok l' → l.Perm l'

/-- Rust enum `ShuffleStrategies` (src/strategy.rs).  `RandomShuffle` draws a
fresh permutation from `thread_rng` on each call; the draw is modelled as an
externally supplied reordering function. -/
inductive ShuffleStrategies where
  | NoShuffle : ShuffleStrategies
  | RandomShuffle (draw : List Person → List Person) : ShuffleStrategies

/-- Rust `impl VecShuffleStrategy for ShuffleStrategies`: `NoShuffle` returns
`Ok(())` leaving the vector unchanged; `RandomShuffle` applies the drawn
reordering and returns `Ok(())`.  Neither variant ever fails. -/
def ShuffleStrategies.shuffle : ShuffleStrategies → Shuffle
  | ShuffleStrategies.NoShuffle => fun l => Except.ok l
  | ShuffleStrategies.RandomShuffle draw => fun l => Except.ok (draw l)

/-- One pass of the inner `for team in &mut teams_vec` loop of
`Teams::create`: walk the team list in order, popping one participant from
the end of `rest` for each team, stopping (leaving later teams untouched)
when `rest` is exhausted. -/
def distributePass : List Team → List Person → List Team × List Person
  | [], rest => ([], rest)
  | t :: ts, rest =>
    match rest.getLast? with
    | none => (t :: ts, rest)
    | some m =>
      let p := distributePass ts rest.dropLast
      (t.assign m :: p.1, p.2)

/-- The outer `while !rest.is_empty()` loop of `Teams::create`, fuelled.
With a non-empty team list each pass strictly shrinks `rest`, so fuel
`rest.length` always suffices; running out of fuel (`none`) happens exactly
when the source loop would never terminate (zero teams, non-empty pool). -/
def distributeGo : Nat → List Team → List Person → Option (List Team)
  | 0, teams, rest => if rest.isEmpty then some teams else none
  | fuel + 1, teams, rest =>
    if rest.isEmpty then some teams
    else distributeGo fuel (distributePass teams rest).1 (distributePass teams rest).2

/-- Outcome of `Teams::create`, separating the `Ok` value, the two places an
error can be returned (before / after `Team` values exist), the `unwrap`
panic, and non-termination of the round-robin loop. -/
inductive CreateResult where
  | ok (teams : Teams) : CreateResult
  | validationError (e : TeamsCreationSettingError) : CreateResult
  | shuffleError1 : CreateResult
  | shuffleError2 (constructed : List Team) : CreateResult
  | panicUnwrap : CreateResult
  | diverge : CreateResult
deriving DecidableEq, Repr

/-- Rust `Teams::create` (src/domain.rs): validate, shuffle the leader
candidates, pop leaders into teams, merge leftover candidates with the
normal attendees, shuffle again, and distribute round-robin. -/
def Teams.create (setting : TeamsCreationSetting) (shuffle_strategy : Shuffle) :
    CreateResult :=
  match setting.validate with
  | Except.error e => CreateResult.validationError e
  | Except.ok _ =>
    match shuffle_strategy setting.leader_candidates with
    | Except.error _ => CreateResult.shuffleError1
    | Except.ok leader_candidates =>
      match Team.create_by_leader_candidates leader_candidates setting.num_of_teams with
      | none => CreateResult.panicUnwrap
      | some (teams_vec, rest) =>
        match shuffle_strategy (rest ++ setting.normal_attendees) with
        | Except.error _ => CreateResult.shuffleError2 teams_vec
        | Except.ok rest' =>
          match distributeGo rest'.length teams_vec rest' with
          | none => CreateResult.diverge
          | some final => CreateResult.ok { team := final }

/-- Rust `Teams::borrow_vec`. -/
def Teams.borrow_vec (ts : Teams) : List Team :=
  ts.team

/-! ### Helper lemmas about the leader-popping loop -/

/-- Whenever the popping loop completes, it created exactly `k` teams. -/
theorem create_by_leader_candidatesGo_length (k : Nat) :
    ∀ (cands : List Person) (tv : List Team) (rest : List Person),
      Team.create_by_leader_candidatesGo k cands = some (tv, rest) → tv.length = k := by
  induction k with
  | zero =>
    intro cands tv rest h
    simp only [Team.create_by_leader_candidatesGo, Option.some.injEq, Prod.mk.injEq] at h
    simp [← h.1]
  | succ k ih =>
    intro cands tv rest h
    simp only [Team.create_by_leader_candidatesGo] at h
    cases hl : cands.getLast? with
    | none => rw [hl] at h; exact absurd h (by simp)
    | some leader =>
      rw [hl] at h
      cases hg : Team.create_by_leader_candidatesGo k cands.dropLast with
      | none => rw [hg] at h; exact absurd h (by simp)
      | some pr =>
        rw [hg] at h
        obtain ⟨ts, r⟩ := pr
        simp only [Option.some.injEq, Prod.mk.injEq] at h
        rw [← h.1]
        simp [ih cands.dropLast ts r hg]

/-- Exact description of the popping loop when the pool is large enough:
it returns the teams led by the last `k` candidates (in pop order) and the
untouched front of the pool. -/
theorem create_by_leader_candidatesGo_eq (k : Nat) :
    ∀ (cands : List Person), k ≤ cands.length →
      Team.create_by_leader_candidatesGo k cands =
        some ((cands.reverse.take k).map Team.new, cands.take (cands.length - k)) := by
  induction k with
  | zero =>
    intro cands _
    simp [Team.create_by_leader_candidatesGo]
  | succ k ih =>
    intro cands hk
    rcases List.eq_nil_or_concat cands with hnil | ⟨front, a, hfa⟩
    · subst hnil; simp at hk
    · subst hfa
      rw [List.concat_eq_append] at hk ⊢
      have hfront : k ≤ front.length := by simp at hk; omega
      simp only [Team.create_by_leader_candidatesGo, List.getLast?_concat,
        List.dropLast_concat, ih front hfront]
      simp only [List.reverse_append, List.reverse_cons, List.reverse_nil,
        List.nil_append, List.singleton_append, List.take_succ_cons, List.map_cons,
        List.length_append, List.length_singleton, Option.some.injEq, Prod.mk.injEq]
      constructor
      · trivial
      · rw [List.take_append_of_le_length (by omega)]
        congr 1
        omega

/-! ### Helper lemmas about the round-robin distribution loops -/

/-- One distribution pass leaves every team's leader unchanged. -/
theorem distributePass_map_leader : ∀ (teams : List Team) (rest : List Person),
    (distributePass teams rest).1.map Team.leader = teams.map Team.leader := by
  intro teams
  induction teams with
  | nil => intro rest; simp [distributePass]
  | cons t ts ih =>
    intro rest
    rcases List.eq_nil_or_concat rest with hnil | ⟨front, a, hfa⟩
    · subst hnil; simp [distributePass]
    · subst hfa
      simp [distributePass, List.getLast?_concat, List.dropLast_concat, ih front, Team.assign]

/-- One distribution pass preserves the number of teams. -/
theorem distributePass_fst_length : ∀ (teams : List Team) (rest : List Person),
    (distributePass teams rest).1.length = teams.length := by
  intro teams
  induction teams with
  | nil => intro rest; simp [distributePass]
  | cons t ts ih =>
    intro rest
    rcases List.eq_nil_or_concat rest with hnil | ⟨front, a, hfa⟩
    · subst hnil; simp [distributePass]
    · subst hfa
      simp [distributePass, List.getLast?_concat, List.dropLast_concat, ih front]

/-- One distribution pass removes `min (number of teams) (pool size)`
participants from the end of the pool. -/
theorem distributePass_snd_length : ∀ (teams : List Team) (rest : List Person),
    (distributePass teams rest).2.length = rest.length - teams.length := by
  intro teams
  induction teams with
  | nil => intro rest; simp [distributePass]
  | cons t ts ih =>
    intro rest
    rcases List.eq_nil_or_concat rest with hnil | ⟨front, a, hfa⟩
    · subst hnil; simp [distributePass]
    · subst hfa
      rw [List.concat_eq_append]
      simp [distributePass, List.getLast?_concat, List.dropLast_concat, ih front]

/-- One distribution pass moves participants from the pool into teams without
creating or losing anyone. -/
theorem distributePass_perm : ∀ (teams : List Team) (rest : List Person),
    ((distributePass teams rest).1.flatMap Team.member ++ (distributePass teams rest).2).Perm
      (teams.flatMap Team.member ++ rest) := by
  intro teams
  induction teams with
  | nil => intro rest; simp [distributePass]
  | cons t ts ih =>
    intro rest
    rcases List.eq_nil_or_concat rest with hnil | ⟨front, a, hfa⟩
    · subst hnil; simp [distributePass]
    · subst hfa
      rw [List.concat_eq_append]
      simp only [distributePass, List.getLast?_concat, List.dropLast_concat,
        List.flatMap_cons, Team.assign]
      have step1 : (((t.member ++ [a]) ++ (distributePass ts front).1.flatMap Team.member) ++
          (distributePass ts front).2).Perm
          ((t.member ++ [a]) ++ (ts.flatMap Team.member ++ front)) := by
        rw [List.append_assoc]
        exact List.Perm.append_left _ (ih front)
      have step2 : ((t.member ++ [a]) ++ (ts.flatMap Team.member ++ front)).Perm
          ((t.member ++ ts.flatMap Team.member) ++ (front ++ [a])) := by
        simp only [List.append_assoc]
        refine List.Perm.append_left _ ?_
        have hcomm := @List.perm_append_comm Person [a] (ts.flatMap Team.member ++ front)
        simpa [List.append_assoc] using hcomm
      exact step1.trans step2

/-- When all teams enter a pass with `c` members, the pass gives one extra
member to each of the first `min (number of teams) (pool size)` teams. -/
theorem distributePass_counts : ∀ (teams : List Team) (rest : List Person) (c : Nat),
    (∀ t ∈ teams, t.member.length = c) →
    (distributePass teams rest).1.map (fun t => t.member.length) =
      List.replicate (min teams.length rest.length) (c + 1) ++
      List.replicate (teams.length - rest.length) c := by
  intro teams
  induction teams with
  | nil => intro rest c _; simp [distributePass]
  | cons t ts ih =>
    intro rest c hc
    rcases List.eq_nil_or_concat rest with hnil | ⟨front, a, hfa⟩
    · subst hnil
      simp only [distributePass, List.length_nil, Nat.min_zero, List.replicate_zero,
        Nat.sub_zero, List.nil_append]
      refine List.eq_replicate_iff.2 ⟨by simp, ?_⟩
      intro b hb
      simp only [List.mem_map] at hb
      obtain ⟨u, hu, hb⟩ := hb
      rw [← hb]
      exact hc u hu
    · subst hfa
      rw [List.concat_eq_append]
      have hthead : t.member.length = c := hc t (by simp)
      have htail : ∀ u ∈ ts, u.member.length = c := fun u hu => hc u (by simp [hu])
      simp only [distributePass, List.getLast?_concat, List.dropLast_concat,
        List.map_cons, ih front c htail, Team.assign, List.length_append,
        List.length_cons, List.length_singleton, List.length_nil]
      have hmin : min (ts.length + 1) (front.length + 1) = min ts.length front.length + 1 :=
        Nat.succ_min_succ ts.length front.length
      have hsub : ts.length + 1 - (front.length + 1) = ts.length - front.length := by omega
      rw [hmin, hsub, List.replicate_succ, List.cons_append, hthead]

/-- With an empty pool the outer loop exits immediately, whatever the fuel. -/
theorem distributeGo_nil (fuel : Nat) (teams : List Team) :
    distributeGo fuel teams [] = some teams := by
  cases fuel <;> simp [distributeGo]

/-- Whenever the outer loop terminates it preserves the leaders, the number
of teams, and the combined contents of team members and pool. -/
theorem distributeGo_spec (fuel : Nat) : ∀ (teams : List Team) (rest : List Person)
    (final : List Team), distributeGo fuel teams rest = some final →
      final.map Team.leader = teams.map Team.leader ∧
      final.length = teams.length ∧
      (final.flatMap Team.member).Perm (teams.flatMap Team.member ++ rest) := by
  induction fuel with
  | zero =>
    intro teams rest final h
    by_cases hr : rest.isEmpty
    · rw [List.isEmpty_iff] at hr
      subst hr
      simp only [distributeGo_nil, Option.some.injEq] at h
      subst h
      exact ⟨rfl, rfl, by simp⟩
    · simp [distributeGo, hr] at h
  | succ fuel ih =>
    intro teams rest final h
    by_cases hr : rest.isEmpty
    · rw [List.isEmpty_iff] at hr
      subst hr
      simp only [distributeGo_nil, Option.some.injEq] at h
      subst h
      exact ⟨rfl, rfl, by simp⟩
    · simp only [distributeGo, hr, if_neg, Bool.false_eq_true, ite_false] at h
      obtain ⟨h1, h2, h3⟩ := ih _ _ _ h
      refine ⟨h1.trans (distributePass_map_leader teams rest), ?_, ?_⟩
      · rw [h2, distributePass_fst_length]
      · refine h3.trans ?_
        have hp := distributePass_perm teams rest
        exact (List.Perm.append_left _ (List.Perm.refl _)).trans hp

/-- With at least one team and fuel at least the pool size, the outer loop
terminates. -/
theorem distributeGo_isSome (fuel : Nat) : ∀ (teams : List Team) (rest : List Person),
    teams ≠ [] → rest.length ≤ fuel → (distributeGo fuel teams rest).isSome := by
  induction fuel with
  | zero =>
    intro teams rest _ hlen
    have : rest = [] := List.length_eq_zero.1 (Nat.le_zero.1 hlen)
    subst this
    simp [distributeGo_nil]
  | succ fuel ih =>
    intro teams rest hne hlen
    by_cases hr : rest.isEmpty
    · rw [List.isEmpty_iff] at hr
      subst hr
      simp [distributeGo_nil]
    · simp only [distributeGo, hr, Bool.false_eq_true, ite_false]
      have hne' : (distributePass teams rest).1 ≠ [] := by
        intro hcon
        have := distributePass_fst_length teams rest
        rw [hcon] at this
        exact hne (List.length_eq_zero.1 this.symm)
      refine ih _ _ hne' ?_
      rw [distributePass_snd_length]
      have h1 : 1 ≤ teams.length := List.length_pos.2 hne
      have h2 : 1 ≤ rest.length := by
        cases rest with
        | nil => simp at hr
        | cons x xs => simp
      omega

/-- Member counts of a uniformly filled team list form a constant list. -/
theorem map_counts_eq_replicate (teams : List Team) (c : Nat)
    (hc : ∀ t ∈ teams, t.member.length = c) :
    teams.map (fun t => t.member.length) = List.replicate teams.length c := by
  refine List.eq_replicate_iff.2 ⟨by simp, ?_⟩
  intro b hb
  simp only [List.mem_map] at hb
  obtain ⟨u, hu, hb⟩ := hb
  rw [← hb]
  exact hc u hu

/-- Round-robin distribution of a pool of `p` participants over `n` teams that
all start with `c` members ends with the first `p % n` teams holding
`c + p / n + 1` members and the remaining teams holding `c + p / n`. -/
theorem distributeGo_counts (fuel : Nat) : ∀ (teams : List Team) (rest : List Person)
    (final : List Team) (c : Nat),
    distributeGo fuel teams rest = some final → teams ≠ [] →
    (∀ t ∈ teams, t.member.length = c) →
    final.map (fun t => t.member.length) =
      List.replicate (rest.length % teams.length) (c + rest.length / teams.length + 1) ++
      List.replicate (teams.length - rest.length % teams.length)
        (c + rest.length / teams.length) := by
  induction fuel with
  | zero =>
    intro teams rest final c h hne hc
    by_cases hr : rest.isEmpty
    · rw [List.isEmpty_iff] at hr
      subst hr
      rw [distributeGo_nil] at h
      obtain rfl : teams = final := Option.some.inj h
      simp only [List.length_nil, Nat.zero_mod, Nat.zero_div, Nat.add_zero,
        List.replicate_zero, List.nil_append, Nat.sub_zero]
      exact map_counts_eq_replicate teams c hc
    · simp [distributeGo, hr] at h
  | succ fuel ih =>
    intro teams rest final c h hne hc
    by_cases hr : rest.isEmpty
    · rw [List.isEmpty_iff] at hr
      subst hr
      rw [distributeGo_nil] at h
      obtain rfl : teams = final := Option.some.inj h
      simp only [List.length_nil, Nat.zero_mod, Nat.zero_div, Nat.add_zero,
        List.replicate_zero, List.nil_append, Nat.sub_zero]
      exact map_counts_eq_replicate teams c hc
    · have hn : 1 ≤ teams.length := List.length_pos.2 hne
      have hp : 1 ≤ rest.length := by
        cases rest with
        | nil => simp at hr
        | cons x xs => simp
      simp only [distributeGo, hr, Bool.false_eq_true, ite_false] at h
      have hcounts := distributePass_counts teams rest c hc
      by_cases hlt : rest.length < teams.length
      · have h2 : (distributePass teams rest).2.length = 0 := by
          rw [distributePass_snd_length]
          omega
        have h2' : (distributePass teams rest).2 = [] := List.length_eq_zero.1 h2
        rw [h2', distributeGo_nil] at h
        obtain rfl : (distributePass teams rest).1 = final := Option.some.inj h
        rw [hcounts]
        have hmin : min teams.length rest.length = rest.length := by omega
        have hmod : rest.length % teams.length = rest.length := Nat.mod_eq_of_lt hlt
        have hdiv : rest.length / teams.length = 0 := Nat.div_eq_of_lt hlt
        rw [hmin, hmod, hdiv]
        simp
      · push_neg at hlt
        have hmin : min teams.length rest.length = teams.length := by omega
        have huniform : ∀ t ∈ (distributePass teams rest).1, t.member.length = c + 1 := by
          intro t ht
          have hmem : t.member.length ∈
              (distributePass teams rest).1.map (fun t => t.member.length) :=
            List.mem_map_of_mem (fun t => t.member.length) ht
          have h0 : teams.length - rest.length = 0 := by omega
          rw [hcounts, hmin, h0] at hmem
          simp only [List.replicate_zero, List.append_nil] at hmem
          exact List.eq_of_mem_replicate hmem
        have hne' : (distributePass teams rest).1 ≠ [] := by
          intro hcon
          have hl := distributePass_fst_length teams rest
          rw [hcon] at hl
          exact hne (List.length_eq_zero.1 hl.symm)
        have hrec := ih _ _ _ (c + 1) h hne' huniform
        rw [distributePass_fst_length, distributePass_snd_length] at hrec
        have e1 : (rest.length - teams.length) % teams.length =
            rest.length % teams.length := (Nat.mod_eq_sub_mod hlt).symm
        have e2 : c + 1 + (rest.length - teams.length) / teams.length =
            c + rest.length / teams.length := by
          rw [Nat.div_eq_sub_div (by omega) hlt]
          omega
        rw [hrec, e1, e2]

/-! ### Helper lemmas about the classifier and the validator -/

/-- Validation succeeds exactly when the team count is positive and there are
at least as many leader candidates as teams. -/
theorem validate_ok_iff (s : TeamsCreationSetting) :
    s.validate = Except.ok () ↔
      (s.num_of_teams ≠ 0 ∧ s.num_of_teams ≤ s.leader_candidates.length) := by
  have hval : s.validate =
      (if s.num_of_teams = 0 then Except.error TeamsCreationSettingError.NumOfTeamsZero
       else if s.leader_candidates.length < s.num_of_teams then
         Except.error
           (TeamsCreationSettingError.LeadersLack s.leader_candidates.length s.num_of_teams)
       else Except.ok ()) := rfl
  rw [hval]
  split_ifs with h1 h2
  · simp [h1]
  · constructor
    · intro hcon
      exact absurd hcon (by simp)
    · intro hcon
      exact absurd hcon.2 (by omega)
  · constructor
    · intro _
      exact ⟨h1, by omega⟩
    · intro _
      rfl

/-- The leader-candidate and normal-attendee projections split the attendee
list: together they are a permutation of all participants. -/
theorem leader_candidates_append_normal_perm (s : TeamsCreationSetting) :
    (s.leader_candidates ++ s.normal_attendees).Perm s.all_people := by
  unfold TeamsCreationSetting.leader_candidates TeamsCreationSetting.normal_attendees
  by_cases hf : s.is_flat
  · simp [hf]
  · simp only [hf, Bool.false_eq_true, ite_false]
    rw [← List.map_append]
    unfold TeamsCreationSetting.all_people
    exact List.Perm.map _ (List.filter_append_perm _ s.attendees)

/-- Teams freshly created from a list of leaders carry exactly those leaders. -/
theorem mapnew_map_leader (l : List Person) :
    (l.map Team.new).map Team.leader = l := by
  induction l with
  | nil => rfl
  | cons x xs ih => simp [Team.new, ih]

/-- Teams freshly created from a list of leaders have no members yet. -/
theorem mapnew_flatMap_member (l : List Person) :
    (l.map Team.new).flatMap Team.member = [] := by
  induction l with
  | nil => rfl
  | cons x xs ih => simp [Team.new, ih]

/-- The participants of a team list, leaders first: flattening
`leader :: member` over the teams is a permutation of the leaders followed by
all members. -/
theorem flatMap_leader_cons_member_perm (teams : List Team) :
    (teams.flatMap fun t => t.leader :: t.member).Perm
      (teams.map Team.leader ++ teams.flatMap Team.member) := by
  induction teams with
  | nil => simp
  | cons t ts ih =>
    simp only [List.flatMap_cons, List.map_cons, List.cons_append]
    refine List.Perm.trans (List.Perm.cons t.leader (List.Perm.append_left _ ih)) ?_
    have hmid : (t.member ++ (ts.map Team.leader ++ ts.flatMap Team.member)).Perm
        (ts.map Team.leader ++ (t.member ++ ts.flatMap Team.member)) := by
      rw [← List.append_assoc, ← List.append_assoc]
      exact List.Perm.append_right _ List.perm_append_comm
    exact List.Perm.cons t.leader hmid

/-- Full characterisation of a successful `Teams::create` run under a
permuting shuffle strategy: the shuffled leader pool, the popped leaders, the
merged leftover pool, and the final team sizes and contents. -/
theorem Teams.create_ok_spec (s : TeamsCreationSetting) (f : Shuffle) (ts : Teams)
    (hperm : Permuting f) (h : Teams.create s f = CreateResult.ok ts) :
    ∃ lc' rest',
      f s.leader_candidates = Except.ok lc' ∧
      s.leader_candidates.Perm lc' ∧
      s.num_of_teams ≤ lc'.length ∧
      f (lc'.take (lc'.length - s.num_of_teams) ++ s.normal_attendees) = Except.ok rest' ∧
      (lc'.take (lc'.length - s.num_of_teams) ++ s.normal_attendees).Perm rest' ∧
      rest'.length + s.num_of_teams = s.all_people.length ∧
      ts.team.length = s.num_of_teams ∧
      ts.team.map Team.leader = lc'.reverse.take s.num_of_teams ∧
      (ts.team.flatMap Team.member).Perm rest' ∧
      ts.team.map (fun t => t.member.length) =
        List.replicate (rest'.length % s.num_of_teams) (rest'.length / s.num_of_teams + 1) ++
        List.replicate (s.num_of_teams - rest'.length % s.num_of_teams)
          (rest'.length / s.num_of_teams) := by
  cases hv : s.validate with
  | error e =>
    simp only [Teams.create, hv] at h
    exact CreateResult.noConfusion h
  | ok u =>
    cases u
    obtain ⟨hn0, hnle⟩ := (validate_ok_iff s).1 hv
    cases hf1 : f s.leader_candidates with
    | error e1 =>
      simp only [Teams.create, hv, hf1] at h
      exact CreateResult.noConfusion h
    | ok lc' =>
      have hperm1 := hperm _ _ hf1
      have hlen1 : lc'.length = s.leader_candidates.length := hperm1.length_eq.symm
      have hnle' : s.num_of_teams ≤ lc'.length := by omega
      have hcb : Team.create_by_leader_candidates lc' s.num_of_teams =
          some ((lc'.reverse.take s.num_of_teams).map Team.new,
            lc'.take (lc'.length - s.num_of_teams)) := by
        unfold Team.create_by_leader_candidates
        exact create_by_leader_candidatesGo_eq s.num_of_teams lc' hnle'
      cases hf2 : f (lc'.take (lc'.length - s.num_of_teams) ++ s.normal_attendees) with
      | error e2 =>
        simp only [Teams.create, hv, hf1, hcb, hf2] at h
        exact CreateResult.noConfusion h
      | ok rest' =>
        cases hd : distributeGo rest'.length
            ((lc'.reverse.take s.num_of_teams).map Team.new) rest' with
        | none =>
          simp only [Teams.create, hv, hf1, hcb, hf2, hd] at h
          exact CreateResult.noConfusion h
        | some final =>
          simp only [Teams.create, hv, hf1, hcb, hf2, hd, CreateResult.ok.injEq] at h
          have htvlen : ((lc'.reverse.take s.num_of_teams).map Team.new).length
              = s.num_of_teams := by
            simp
            omega
          have huniform : ∀ t ∈ (lc'.reverse.take s.num_of_teams).map Team.new,
              t.member.length = 0 := by
            intro t ht
            simp only [List.mem_map] at ht
            obtain ⟨x, _, hx⟩ := ht
            rw [← hx]
            rfl
          have htvne : (lc'.reverse.take s.num_of_teams).map Team.new ≠ [] := by
            intro hcon
            rw [hcon] at htvlen
            exact hn0 htvlen.symm
          obtain ⟨hlead, hflen, hmem⟩ := distributeGo_spec rest'.length _ _ _ hd
          have hcounts := distributeGo_counts rest'.length _ _ _ 0 hd htvne huniform
          have hperm2 := hperm _ _ hf2
          have hlenall : s.leader_candidates.length + s.normal_attendees.length
              = s.all_people.length := by
            have hl := (leader_candidates_append_normal_perm s).length_eq
            simpa using hl
          have hrlen : rest'.length + s.num_of_teams = s.all_people.length := by
            have h2 := hperm2.length_eq
            simp only [List.length_append, List.length_take] at h2
            rw [Nat.min_eq_left (by omega)] at h2
            omega
          refine ⟨lc', rest', rfl, hperm1, hnle', hf2, hperm2, hrlen, ?_, ?_, ?_, ?_⟩
          · rw [← h]
            show final.length = s.num_of_teams
            rw [hflen, htvlen]
          · rw [← h]
            show final.map Team.leader = lc'.reverse.take s.num_of_teams
            rw [hlead, mapnew_map_leader]
          · rw [← h]
            show (final.flatMap Team.member).Perm rest'
            rw [mapnew_flatMap_member, List.nil_append] at hmem
            exact hmem
          · rw [← h]
            show final.map (fun t => t.member.length) = _
            rw [htvlen] at hcounts
            simpa using hcounts

/-- Total head-count of a team list: flattening `leader :: member` counts one
leader per team plus all members. -/
theorem flatMap_leader_cons_member_length (teams : List Team) :
    (teams.flatMap fun t => t.leader :: t.member).length =
      (teams.map fun t => t.member.length).sum + teams.length := by
  induction teams with
  | nil => rfl
  | cons t ts ih =>
    simp only [List.flatMap_cons, List.map_cons, List.length_append, List.length_cons,
      List.sum_cons, ih]
    omega

/-! ### Theorems for the individual claims -/

/-- C1: for every configuration that passes validation and every permuting
shuffle strategy, the `TeamSet` returned by `Teams::create` contains every
input participant exactly once across all teams, counting leaders and
members; consequently the sum of member counts plus the team count equals
the number of input participants. -/
theorem teams_create_exact_partition (s : TeamsCreationSetting) (f : Shuffle) (ts : Teams)
    (hperm : Permuting f) (h : Teams.create s f = CreateResult.ok ts) :
    (ts.team.flatMap fun t => t.leader :: t.member).Perm s.all_people ∧
    (ts.team.map fun t => t.member.length).sum + ts.team.length = s.all_people.length := by
  obtain ⟨lc', rest', _, hp1, hn, _, hp2, hrlen, hlen, hlead, hmem, _⟩ :=
    Teams.create_ok_spec s f ts hperm h
  have main : (ts.team.flatMap fun t => t.leader :: t.member).Perm s.all_people := by
    refine (flatMap_leader_cons_member_perm ts.team).trans ?_
    rw [hlead]
    have step1 : (lc'.reverse.take s.num_of_teams ++ ts.team.flatMap Team.member).Perm
        (lc'.reverse.take s.num_of_teams ++ rest') :=
      List.Perm.append_left _ hmem
    have step2 : (lc'.reverse.take s.num_of_teams ++ rest').Perm
        (lc'.reverse.take s.num_of_teams ++
          (lc'.take (lc'.length - s.num_of_teams) ++ s.normal_attendees)) :=
      List.Perm.append_left _ hp2.symm
    have step3 : (lc'.reverse.take s.num_of_teams ++
        (lc'.take (lc'.length - s.num_of_teams) ++ s.normal_attendees)).Perm
        (lc'.drop (lc'.length - s.num_of_teams) ++
          (lc'.take (lc'.length - s.num_of_teams) ++ s.normal_attendees)) := by
      rw [List.take_reverse]
      exact List.Perm.append_right _ (List.reverse_perm _)
    have step4 : (lc'.drop (lc'.length - s.num_of_teams) ++
        (lc'.take (lc'.length - s.num_of_teams) ++ s.normal_attendees)).Perm
        (lc' ++ s.normal_attendees) := by
      rw [← List.append_assoc]
      refine List.Perm.append_right _ (List.perm_append_comm.trans ?_)
      rw [List.take_append_drop]
    have step5 : (lc' ++ s.normal_attendees).Perm
        (s.leader_candidates ++ s.normal_attendees) :=
      List.Perm.append_right _ hp1.symm
    exact step1.trans (step2.trans (step3.trans (step4.trans
      (step5.trans (leader_candidates_append_normal_perm s)))))
  refine ⟨main, ?_⟩
  have hlength := main.length_eq
  rw [flatMap_leader_cons_member_length] at hlength
  omega

/-- C2: for every configuration that passes validation and every permuting
shuffle strategy, member counts of any two created teams differ by at most
one when the non-leader participant count is not divisible by the team
count, and are all equal when it is. -/
theorem teams_create_member_counts_balanced (s : TeamsCreationSetting) (f : Shuffle)
    (ts : Teams) (hperm : Permuting f) (h : Teams.create s f = CreateResult.ok ts) :
    ((s.all_people.length - s.num_of_teams) % s.num_of_teams ≠ 0 →
      ∀ t1 ∈ ts.team, ∀ t2 ∈ ts.team, t1.member.length ≤ t2.member.length + 1) ∧
    ((s.all_people.length - s.num_of_teams) % s.num_of_teams = 0 →
      ∀ t1 ∈ ts.team, ∀ t2 ∈ ts.team, t1.member.length = t2.member.length) := by
  obtain ⟨lc', rest', _, _, hn, _, _, hrlen, hlen, _, _, hcounts⟩ :=
    Teams.create_ok_spec s f ts hperm h
  have hr : rest'.length = s.all_people.length - s.num_of_teams := by omega
  have hval : ∀ t ∈ ts.team,
      t.member.length = rest'.length / s.num_of_teams + 1 ∨
      t.member.length = rest'.length / s.num_of_teams := by
    intro t ht
    have hm : t.member.length ∈ ts.team.map (fun t => t.member.length) :=
      List.mem_map_of_mem _ ht
    rw [hcounts] at hm
    rcases List.mem_append.1 hm with hmm | hmm
    · exact Or.inl (List.eq_of_mem_replicate hmm)
    · exact Or.inr (List.eq_of_mem_replicate hmm)
  constructor
  · intro _ t1 ht1 t2 ht2
    rcases hval t1 ht1 with h1 | h1 <;> rcases hval t2 ht2 with h2 | h2 <;> omega
  · intro hzero t1 ht1 t2 ht2
    rw [← hr] at hzero
    have hval0 : ∀ t ∈ ts.team, t.member.length = rest'.length / s.num_of_teams := by
      intro t ht
      have hm : t.member.length ∈ ts.team.map (fun t => t.member.length) :=
        List.mem_map_of_mem _ ht
      rw [hcounts, hzero] at hm
      simp only [List.replicate_zero, List.nil_append, Nat.sub_zero] at hm
      exact List.eq_of_mem_replicate hm
    rw [hval0 t1 ht1, hval0 t2 ht2]

/-- C3: validation reports `LeadersLack` exactly when the post-flatten
leader-candidate count is below the team count, carrying the actual count
and the configured team count; a validation error propagates unchanged
through `Teams::create`. -/
theorem validate_insufficient_leaders_iff (s : TeamsCreationSetting) (f : Shuffle)
    (a r : Nat) (e : TeamsCreationSettingError) :
    (s.validate = Except.error (TeamsCreationSettingError.LeadersLack a r) ↔
      (s.leader_candidates.length < s.num_of_teams ∧
        a = s.leader_candidates.length ∧ r = s.num_of_teams)) ∧
    (s.validate = Except.error e → Teams.create s f = CreateResult.validationError e) := by
  constructor
  · have hval : s.validate =
        (if s.num_of_teams = 0 then Except.error TeamsCreationSettingError.NumOfTeamsZero
         else if s.leader_candidates.length < s.num_of_teams then
           Except.error
             (TeamsCreationSettingError.LeadersLack s.leader_candidates.length s.num_of_teams)
         else Except.ok ()) := rfl
    rw [hval]
    split_ifs with h1 h2
    · constructor
      · intro hcon
        simp at hcon
      · rintro ⟨hcon, _, _⟩
        omega
    · constructor
      · intro hcon
        simp only [Except.error.injEq, TeamsCreationSettingError.LeadersLack.injEq] at hcon
        exact ⟨h2, hcon.1.symm, hcon.2.symm⟩
      · rintro ⟨_, ha, hr⟩
        rw [ha, hr]
    · constructor
      · intro hcon
        exact absurd hcon (by simp)
      · rintro ⟨hcon, _, _⟩
        exact absurd hcon h2
  · intro he
    simp only [Teams.create, he]

/-- C4: validation reports `NumOfTeamsZero` exactly when the configured team
count is zero, whatever the attendee list and the flatten flag. -/
theorem validate_zero_teams_iff (s : TeamsCreationSetting) :
    s.validate = Except.error TeamsCreationSettingError.NumOfTeamsZero ↔
      s.num_of_teams = 0 := by
  have hval : s.validate =
      (if s.num_of_teams = 0 then Except.error TeamsCreationSettingError.NumOfTeamsZero
       else if s.leader_candidates.length < s.num_of_teams then
         Except.error
           (TeamsCreationSettingError.LeadersLack s.leader_candidates.length s.num_of_teams)
       else Except.ok ()) := rfl
  rw [hval]
  split_ifs with h1 h2
  · simp [h1]
  · simp [h1]
  · simp [h1]

/-- C5: a successful `Teams::create` yields exactly `num_of_teams` teams;
the leaders are popped from the end of the shuffled leader pool (team 0
gets the last element), and the unpopped front of the pool is merged with
the normal attendees as the input of the second shuffle. -/
theorem teams_create_pops_leaders_from_end (s : TeamsCreationSetting) (f : Shuffle)
    (ts : Teams) (hperm : Permuting f) (h : Teams.create s f = CreateResult.ok ts) :
    ts.team.length = s.num_of_teams ∧
    ∃ lc' pool', f s.leader_candidates = Except.ok lc' ∧
      ts.team.map Team.leader = lc'.reverse.take s.num_of_teams ∧
      f (lc'.take (lc'.length - s.num_of_teams) ++ s.normal_attendees) =
        Except.ok pool' := by
  obtain ⟨lc', rest', hf1, _, _, hf2, _, _, hlen, hlead, _, _⟩ :=
    Teams.create_ok_spec s f ts hperm h
  exact ⟨hlen, lc', rest', hf1, hlead, hf2⟩

/-- C6: the classifier projections are pure order-preserving views of the
attendee list: under the flatten flag the leader pool is everybody and the
normal pool empty; otherwise the leader pool holds exactly the attendees
whose eligibility flag is literally `Some(true)` (an unset flag resolves
false) and the normal pool the complement, both as order-preserving
sublists of the full participant list. -/
theorem classifier_projections (s : TeamsCreationSetting) :
    s.leader_candidates =
      (if s.is_flat then s.all_people
       else (s.attendees.filter (fun a => a.leader == some true)).map (fun a => a.person)) ∧
    s.normal_attendees =
      (if s.is_flat then ([] : List Person)
       else (s.attendees.filter (fun a => !(a.leader == some true))).map
         (fun a => a.person)) ∧
    s.leader_candidates.Sublist s.all_people ∧
    s.normal_attendees.Sublist s.all_people := by
  have hpred : ∀ a : Attendee, a.is_leader = (a.leader == some true) := by
    intro a
    cases ha : a.leader with
    | none => simp [Attendee.is_leader, ha]
    | some b => cases b <;> simp [Attendee.is_leader, ha]
  refine ⟨?_, ?_, ?_, ?_⟩
  · unfold TeamsCreationSetting.leader_candidates
    by_cases hf : s.is_flat
    · simp [hf]
    · simp only [hf, Bool.false_eq_true, ite_false]
      congr 1
      exact List.filter_congr (fun a _ => hpred a)
  · unfold TeamsCreationSetting.normal_attendees
    by_cases hf : s.is_flat
    · simp [hf]
    · simp only [hf, Bool.false_eq_true, ite_false]
      congr 1
      refine List.filter_congr (fun a _ => ?_)
      rw [hpred a]
  · unfold TeamsCreationSetting.leader_candidates
    by_cases hf : s.is_flat
    · simp [hf]
    · simp only [hf, Bool.false_eq_true, ite_false]
      exact List.Sublist.map _ (List.filter_sublist _)
  · unfold TeamsCreationSetting.normal_attendees
    by_cases hf : s.is_flat
    · simp [hf]
    · simp only [hf, Bool.false_eq_true, ite_false]
      exact List.Sublist.map _ (List.filter_sublist _)

/-- C7: with the Identity (`NoShuffle`) behaviour, formation is fully
deterministic: any two runs whose shuffles behave as `NoShuffle` produce the
same result, and `NoShuffle` leaves every sequence unchanged and succeeds. -/
theorem create_identity_deterministic (s : TeamsCreationSetting) (f g : Shuffle)
    (hf : ∀ l, f l = ShuffleStrategies.NoShuffle.shuffle l)
    (hg : ∀ l, g l = ShuffleStrategies.NoShuffle.shuffle l) :
    Teams.create s f = Teams.create s g ∧
    (∀ l, ShuffleStrategies.NoShuffle.shuffle l = Except.ok l) := by
  have hfg : f = g := funext fun l => (hf l).trans (hg l).symm
  exact ⟨by rw [hfg], fun l => rfl⟩

/-- C9: when validation succeeds and the strategy permutes its input, the
`pop().unwrap()` inside `Team::create_by_leader_candidates` cannot panic:
validation bounds the pool and shuffling preserves its length. -/
theorem create_no_unwrap_panic (s : TeamsCreationSetting) (f : Shuffle)
    (hv : s.validate = Except.ok ()) (hperm : Permuting f) :
    s.num_of_teams ≤ s.leader_candidates.length ∧
    Teams.create s f ≠ CreateResult.panicUnwrap := by
  obtain ⟨hn0, hnle⟩ := (validate_ok_iff s).1 hv
  refine ⟨hnle, ?_⟩
  intro hcon
  cases hf1 : f s.leader_candidates with
  | error e1 =>
    simp only [Teams.create, hv, hf1] at hcon
    exact CreateResult.noConfusion hcon
  | ok lc' =>
    have hlen1 : lc'.length = s.leader_candidates.length :=
      (hperm _ _ hf1).length_eq.symm
    have hnle' : s.num_of_teams ≤ lc'.length := by omega
    have hcb : Team.create_by_leader_candidates lc' s.num_of_teams =
        some ((lc'.reverse.take s.num_of_teams).map Team.new,
          lc'.take (lc'.length - s.num_of_teams)) := by
      unfold Team.create_by_leader_candidates
      exact create_by_leader_candidatesGo_eq s.num_of_teams lc' hnle'
    cases hf2 : f (lc'.take (lc'.length - s.num_of_teams) ++ s.normal_attendees) with
    | error e2 =>
      simp only [Teams.create, hv, hf1, hcb, hf2] at hcon
      exact CreateResult.noConfusion hcon
    | ok rest' =>
      cases hd : distributeGo rest'.length
          ((lc'.reverse.take s.num_of_teams).map Team.new) rest' with
      | none =>
        simp only [Teams.create, hv, hf1, hcb, hf2, hd] at hcon
        exact CreateResult.noConfusion hcon
      | some final =>
        simp only [Teams.create, hv, hf1, hcb, hf2, hd] at hcon
        exact CreateResult.noConfusion hcon

/-- C10: when validation succeeds the round-robin distribution loop of
`Teams::create` terminates, because the team list iterated by the inner loop
is non-empty; with zero teams the loop could never terminate, but validation
excludes that case. -/
theorem create_round_robin_terminates (s : TeamsCreationSetting) (f : Shuffle)
    (hv : s.validate = Except.ok ()) :
    0 < s.num_of_teams ∧ Teams.create s f ≠ CreateResult.diverge := by
  obtain ⟨hn0, _⟩ := (validate_ok_iff s).1 hv
  refine ⟨Nat.pos_of_ne_zero hn0, ?_⟩
  intro hcon
  cases hf1 : f s.leader_candidates with
  | error e1 =>
    simp only [Teams.create, hv, hf1] at hcon
    exact CreateResult.noConfusion hcon
  | ok lc' =>
    cases hcb : Team.create_by_leader_candidates lc' s.num_of_teams with
    | none =>
      simp only [Teams.create, hv, hf1, hcb] at hcon
      exact CreateResult.noConfusion hcon
    | some pr =>
      obtain ⟨tv, rest⟩ := pr
      have htvlen : tv.length = s.num_of_teams :=
        create_by_leader_candidatesGo_length s.num_of_teams lc' tv rest hcb
      have htvne : tv ≠ [] := by
        intro hc
        rw [hc] at htvlen
        exact hn0 htvlen.symm
      cases hf2 : f (rest ++ s.normal_attendees) with
      | error e2 =>
        simp only [Teams.create, hv, hf1, hcb, hf2] at hcon
        exact CreateResult.noConfusion hcon
      | ok rest' =>
        have hsome := distributeGo_isSome rest'.length tv rest' htvne (Nat.le_refl _)
        obtain ⟨final, hd⟩ := Option.isSome_iff_exists.1 hsome
        simp only [Teams.create, hv, hf1, hcb, hf2, hd] at hcon
        exact CreateResult.noConfusion hcon

/-! ### Concrete instances used in counterexamples and witnesses -/

/-- Participant "A". -/
def personA : Person := { name := "A" }

/-- Participant "B". -/
def personB : Person := { name := "B" }

/-- Participant "C". -/
def personC : Person := { name := "C" }

/-- Participant "D". -/
def personD : Person := { name := "D" }

/-- Participant "E". -/
def personE : Person := { name := "E" }

/-- The example configuration of the repository's `create_teams_by_setting`
test: A, B, E are leader candidates, C, D are not; two teams, no flatten. -/
def exampleSetting : TeamsCreationSetting :=
  { attendees :=
      [ { person := personA, leader := some true }
      , { person := personB, leader := some true }
      , { person := personC, leader := some false }
      , { person := personD, leader := some false }
      , { person := personE, leader := some true } ]
  , num_of_teams := 2
  , flat := some false }

/-- The identity shuffle behaviour, i.e. what `NoShuffle` does. -/
def idShuffle : Shuffle := fun l => Except.ok l

/-- The identity shuffle trivially permutes its input. -/
theorem idShuffle_permuting : Permuting idShuffle := by
  intro l l' h
  have hll : l = l' := Except.ok.inj h
  rw [hll]

/-- Teams produced by the example configuration under the identity shuffle. -/
def exampleTeams : Teams :=
  { team :=
      [ { leader := personE, member := [personD, personA] }
      , { leader := personB, member := [personC] } ] }

/-- Running the example configuration through `Teams::create` with the
identity shuffle yields `exampleTeams`. -/
theorem exampleCreate :
    Teams.create exampleSetting idShuffle = CreateResult.ok exampleTeams := by
  rfl

/-- A configuration with four attendees, none of them leader-eligible, and
two requested teams (the `InsufficientLeaders(0, 2)` example of the spec). -/
def exampleSettingNoLeaders : TeamsCreationSetting :=
  { attendees :=
      [ { person := personA, leader := none }
      , { person := personB, leader := none }
      , { person := personC, leader := none }
      , { person := personD, leader := none } ]
  , num_of_teams := 2
  , flat := none }

/-- A conceivable `VecShuffleStrategy` implementation that fails exactly on
one-element sequences (the trait allows any fallible shuffle). -/
def failOnSingleton : Shuffle := fun l =>
  if l.length = 1 then Except.error () else Except.ok l

/-- Two leader-eligible attendees, one team: the leftover pool after popping
one leader has exactly one element, making `failOnSingleton` fail on the
second shuffle only. -/
def settingTwoLeadersOneTeam : TeamsCreationSetting :=
  { attendees :=
      [ { person := personA, leader := some true }
      , { person := personB, leader := some true } ]
  , num_of_teams := 1
  , flat := none }

/-- Observation: the result is an error that was returned only after `Team`
values had already been constructed. -/
def errorAfterTeams : CreateResult → Bool
  | CreateResult.shuffleError2 (_ :: _) => true
  | _ => false

/-- C8 counterexample: with a shuffle strategy whose failure hits the second
shuffle call, `Teams::create` returns an error even though a `Team` value
(here the team led by B) was constructed before the error was raised —
contradicting the claim that every returned error precedes any `Team`
construction. -/
theorem create_error_after_team_construction_ce :
    Teams.create settingTwoLeadersOneTeam failOnSingleton =
      CreateResult.shuffleError2 [Team.new personB] ∧
    errorAfterTeams (Teams.create settingTwoLeadersOneTeam failOnSingleton) = true := by
  constructor
  · rfl
  · rfl

/-- C8 amended: `Teams::create` never returns a partial `TeamSet`; with a
shuffle strategy that never fails and permutes its input — as both
repository strategies do — it either returns a complete `TeamSet` or a
validation error, which is raised before any `Team` is constructed. -/
theorem create_ok_or_validation_error (s : TeamsCreationSetting) (f : Shuffle)
    (hperm : Permuting f) (hok : ∀ l, ∃ l', f l = Except.ok l') :
    (∃ ts, Teams.create s f = CreateResult.ok ts) ∨
    (∃ e, Teams.create s f = CreateResult.validationError e ∧
      errorAfterTeams (CreateResult.validationError e) = false) := by
  cases hv : s.validate with
  | error e =>
    right
    exact ⟨e, by simp only [Teams.create, hv], rfl⟩
  | ok u =>
    cases u
    left
    obtain ⟨hn0, hnle⟩ := (validate_ok_iff s).1 hv
    obtain ⟨lc', hf1⟩ := hok s.leader_candidates
    have hlen1 : lc'.length = s.leader_candidates.length :=
      (hperm _ _ hf1).length_eq.symm
    have hnle' : s.num_of_teams ≤ lc'.length := by omega
    have hcb : Team.create_by_leader_candidates lc' s.num_of_teams =
        some ((lc'.reverse.take s.num_of_teams).map Team.new,
          lc'.take (lc'.length - s.num_of_teams)) := by
      unfold Team.create_by_leader_candidates
      exact create_by_leader_candidatesGo_eq s.num_of_teams lc' hnle'
    obtain ⟨rest', hf2⟩ :=
      hok (lc'.take (lc'.length - s.num_of_teams) ++ s.normal_attendees)
    have htvlen : ((lc'.reverse.take s.num_of_teams).map Team.new).length
        = s.num_of_teams := by
      simp
      omega
    have htvne : (lc'.reverse.take s.num_of_teams).map Team.new ≠ [] := by
      intro hcon
      rw [hcon] at htvlen
      exact hn0 htvlen.symm
    have hsome := distributeGo_isSome rest'.length
      ((lc'.reverse.take s.num_of_teams).map Team.new) rest' htvne (Nat.le_refl _)
    obtain ⟨final, hd⟩ := Option.isSome_iff_exists.1 hsome
    exact ⟨{ team := final }, by simp only [Teams.create, hv, hf1, hcb, hf2, hd]⟩

/-! ### Witnesses: the claim theorems instantiated at concrete inputs -/

/-- C1 witness: the exact-partition property on the repository's example
configuration under the identity shuffle. -/
theorem teams_create_exact_partition_witness :
    (exampleTeams.team.flatMap fun t => t.leader :: t.member).Perm
      exampleSetting.all_people ∧
    (exampleTeams.team.map fun t => t.member.length).sum + exampleTeams.team.length =
      exampleSetting.all_people.length :=
  teams_create_exact_partition exampleSetting idShuffle exampleTeams
    idShuffle_permuting (by rfl)

/-- C2 witness: the balance property on the repository's example
configuration under the identity shuffle. -/
theorem teams_create_member_counts_balanced_witness :
    ((exampleSetting.all_people.length - exampleSetting.num_of_teams) %
        exampleSetting.num_of_teams ≠ 0 →
      ∀ t1 ∈ exampleTeams.team, ∀ t2 ∈ exampleTeams.team,
        t1.member.length ≤ t2.member.length + 1) ∧
    ((exampleSetting.all_people.length - exampleSetting.num_of_teams) %
        exampleSetting.num_of_teams = 0 →
      ∀ t1 ∈ exampleTeams.team, ∀ t2 ∈ exampleTeams.team,
        t1.member.length = t2.member.length) :=
  teams_create_member_counts_balanced exampleSetting idShuffle exampleTeams
    idShuffle_permuting (by rfl)

/-- C3 witness: the leaderless four-attendee configuration yields
`LeadersLack(0, 2)`, and `Teams::create` propagates it unchanged. -/
theorem validate_insufficient_leaders_iff_witness :
    Teams.create exampleSettingNoLeaders idShuffle =
      CreateResult.validationError (TeamsCreationSettingError.LeadersLack 0 2) :=
  (validate_insufficient_leaders_iff exampleSettingNoLeaders idShuffle 0 2
    (TeamsCreationSettingError.LeadersLack 0 2)).2 (by rfl)

/-- C5 witness: leader popping on the repository's example configuration
under the identity shuffle. -/
theorem teams_create_pops_leaders_from_end_witness :
    exampleTeams.team.length = exampleSetting.num_of_teams ∧
    ∃ lc' pool', idShuffle exampleSetting.leader_candidates = Except.ok lc' ∧
      exampleTeams.team.map Team.leader = lc'.reverse.take exampleSetting.num_of_teams ∧
      idShuffle (lc'.take (lc'.length - exampleSetting.num_of_teams) ++
        exampleSetting.normal_attendees) = Except.ok pool' :=
  teams_create_pops_leaders_from_end exampleSetting idShuffle exampleTeams
    idShuffle_permuting (by rfl)

/-- C7 witness: two identity-behaving runs on the example configuration
agree, and `NoShuffle` returns its input unchanged. -/
theorem create_identity_deterministic_witness :
    Teams.create exampleSetting idShuffle = Teams.create exampleSetting idShuffle ∧
    (∀ l, ShuffleStrategies.NoShuffle.shuffle l = Except.ok l) :=
  create_identity_deterministic exampleSetting idShuffle idShuffle
    (fun _ => rfl) (fun _ => rfl)

/-- C8 witness (amended claim): on the example configuration with the
identity shuffle, `Teams::create` returns a complete result or a
validation error raised before any team exists. -/
theorem create_ok_or_validation_error_witness :
    (∃ ts, Teams.create exampleSetting idShuffle = CreateResult.ok ts) ∨
    (∃ e, Teams.create exampleSetting idShuffle = CreateResult.validationError e ∧
      errorAfterTeams (CreateResult.validationError e) = false) :=
  create_ok_or_validation_error exampleSetting idShuffle idShuffle_permuting
    (fun l => ⟨l, rfl⟩)

/-- C9 witness: no unwrap panic on the example configuration. -/
theorem create_no_unwrap_panic_witness :
    exampleSetting.num_of_teams ≤ exampleSetting.leader_candidates.length ∧
    Teams.create exampleSetting idShuffle ≠ CreateResult.panicUnwrap :=
  create_no_unwrap_panic exampleSetting idShuffle (by rfl) idShuffle_permuting

/-- C10 witness: the round-robin loop terminates on the example
configuration. -/
theorem create_round_robin_terminates_witness :
    0 < exampleSetting.num_of_teams ∧
    Teams.create exampleSetting idShuffle ≠ CreateResult.diverge :=
  create_round_robin_terminates exampleSetting idShuffle (by rfl)
